import Mathlib

/-!
# redboard_lora_example: the acquisition loop of `src/main.c`

A shallow embedding of the body of `main`'s `while (1)` loop (main.c:72-123):
the voltage and temperature arithmetic, the `snprintf` payload, the 64-byte
buffer, and the sequence of calls made to the ADC, GPIO and radio drivers.

The arithmetic on the raw sample is read as exact arithmetic: `voltage` and the
expression under the square root are rationals, `temperature` and the
`temperatureField` of a sample are computed over the reals. The payload encoder
`encode`, which takes any `double` temperature, multiplies as binary64 does:
its product is the exact product rounded to the nearest `double` (`fl`).
-/

namespace RedboardLora

/-! ## Voltage and temperature (main.c:85-90) -/

/-- The constant of `const double reference = 1.5;` (main.c:85). -/
def reference : ℚ := 1.5

/-- The divisor `((1 << 14) - 1)` of main.c:86, an `int` expression. -/
def adcMax : ℕ := (1 <<< 14) - 1

/-- The assignment `double voltage = data * reference / ((1 << 14) - 1);` (main.c:86). -/
def voltage (data : ℕ) : ℚ := (data : ℚ) * reference / (adcMax : ℚ)

/-- The argument of `sqrt` in main.c:88:
`(-5.506)*(-5.506) + 4 * 0.00176 * (870.6 - voltage*1000)`. -/
def discriminant (voltage : ℚ) : ℚ :=
  (-5.506) * (-5.506) + 4 * 0.00176 * (870.6 - voltage * 1000)

/-- The three statements of main.c:88-90:
`temperature = 5.506 - sqrt(...); temperature /= (2 * -.00176); temperature += 30;`. -/
noncomputable def temperature (voltage : ℚ) : ℝ :=
  (5.506 - Real.sqrt ((discriminant voltage : ℚ) : ℝ)) / (2 * -0.00176) + 30

/-! ## The payload and the 64-byte buffer (main.c:104-110) -/

/-- The scale of `int magnitude = 10000;` (main.c:105). -/
def magnitude : ℤ := 10000

/-- The conversion `(int)x` of main.c:108 for a `double` holding the real `x`:
the fractional part is discarded. The conversion is undefined (`none`) when
the truncated value does not fit a 32-bit `int`. -/
noncomputable def toInt (x : ℝ) : Option ℤ :=
  if -2147483649 < x ∧ x < 2147483648 then
    some (if 0 ≤ x then ⌊x⌋ else ⌈x⌉)
  else none

/-- The value `(int)(temperature * magnitude)` of main.c:108 for the raw sample
`data`. When the argument of `sqrt` is negative the `double` is a NaN and the
conversion is undefined. -/
noncomputable def temperatureField (data : ℕ) : Option ℤ :=
  if discriminant (voltage data) < 0 then none
  else toInt (temperature (voltage data) * (magnitude : ℝ))

/-- The `%i` conversion of `snprintf`: a minus sign for a negative value, then
the decimal digits of the magnitude. -/
def fmtInt (i : ℤ) : List Char :=
  if i < 0 then '-' :: Nat.toDigits 10 i.natAbs else Nat.toDigits 10 i.natAbs

/-- The format `"{ \"temperature\": %i, \"magnitude\": %i }"` of main.c:107 applied
to its two `int` arguments. -/
def payloadText (temperature magnitude : ℤ) : List Char :=
  String.toList "\x7b \"temperature\": " ++ fmtInt temperature
    ++ String.toList ", \"magnitude\": " ++ fmtInt magnitude ++ String.toList " \x7d"

/-- The bytes of a text: every character of the payload is ASCII. -/
def bytes (text : List Char) : List ℕ := text.map Char.toNat

/-- The call `snprintf(buffer, size, ...)` whose formatted output is `text`: at most
`size - 1` characters are stored, then a null byte; the bytes of `buffer` after
that are left as they were. -/
def snprintf (buffer : List ℕ) (size : ℕ) (text : List Char) : List ℕ :=
  if size = 0 then buffer
  else
    let written := bytes (text.take (size - 1)) ++ [0]
    written ++ buffer.drop written.length

/-- The call `strlen(buffer)`: the index of the first null byte; `none` when the
buffer holds no null byte, that is when the read would leave the buffer. -/
def strlen : List ℕ → Option ℕ
  | [] => none
  | b :: bs => if b = 0 then some 0 else (strlen bs).map (· + 1)

/-- The text a `%s` conversion prints for `buffer`: the bytes before the first
null byte; `none` when the read would leave the buffer. -/
def cstring (buffer : List ℕ) : Option (List ℕ) :=
  (strlen buffer).map fun n => buffer.take n

/-- Modelled from the spec: the radio driver behind `lora_receive_packet` is not
part of this repository. `receive(buffer, max_length)` copies up to `max_length`
bytes of the incoming packet to the start of the caller's buffer and leaves the
rest of the buffer untouched. -/
def lora_receive_packet (buffer : List ℕ) (size : ℕ) (packet : List ℕ) : List ℕ :=
  packet.take size ++ buffer.drop (packet.take size).length

/-- The buffer of main.c:104 after the `snprintf` of main.c:106-109, for the
integer temperature field `field`; `stack` is the uninitialised content of the
64 bytes. -/
def encodeField (stack : Fin 64 → ℕ) (field : ℤ) : List ℕ :=
  snprintf (List.ofFn stack) 64 (payloadText field magnitude)

/-- Rounding of a real to the nearest integer, a tie going to the even one. -/
noncomputable def roundEven (x : ℝ) : ℤ :=
  if x - ⌊x⌋ < 1 / 2 then ⌊x⌋
  else if 1 / 2 < x - ⌊x⌋ then ⌊x⌋ + 1
  else if ⌊x⌋ % 2 = 0 then ⌊x⌋ else ⌊x⌋ + 1

/-- The exponent of the spacing of the IEEE 754 binary64 numbers around `x`:
52 below the exponent of the power of two at or under `|x|`, and -1074 for the
subnormal numbers, those under `2 ^ (-1022)`. -/
noncomputable def ulpExp (x : ℝ) : ℤ := max (Int.log 2 |x|) (-1022) - 52

/-- The `double` an arithmetic operation delivers when its exact result is `x`:
the multiple of the spacing around `x` nearest to `x`, a tie going to the even
multiple (IEEE 754 binary64, round to nearest even). Results that overflow the
format, of magnitude `2 ^ 1024` and more, are not modelled; they are far outside
the range of `int`. -/
noncomputable def fl (x : ℝ) : ℝ := (roundEven (x / 2 ^ ulpExp x) : ℝ) * 2 ^ ulpExp x

/-- The product `a * b` of two `double`s. -/
noncomputable def dmul (a b : ℝ) : ℝ := fl (a * b)

/-- The payload encoder of main.c:104-109 for a `double temperature` whose value
is `t`: the buffer after `snprintf`, `none` when the `int` conversion is
undefined. The product `temperature * magnitude` of main.c:108 is the `double`
product, with `magnitude` converted to `double` exactly. -/
noncomputable def encode (stack : Fin 64 → ℕ) (t : ℝ) : Option (List ℕ) :=
  (toInt (dmul t (magnitude : ℝ))).map (encodeField stack)

/-! ## The calls of one pass through the loop body (main.c:76-122) -/

/-- A call of a collaborator, with the arguments that matter and the answer the
collaborator gave. -/
inductive Call
  | adc_get_sample (result : Option ℕ)
  | gpio_set (state : Bool)
  | am_util_delay_ms (ms : ℕ)
  | lora_init (frequency : ℕ) (result : Bool)
  | lora_standby
  | lora_set_spreading_factor (sf : ℕ)
  | lora_set_coding_rate (cr : ℕ)
  | lora_set_bandwidth (bw : ℕ)
  | lora_send_packet (data : List ℕ) (len : ℕ)
  | lora_rx_amount (result : ℕ)
  | printf_length (amount : ℕ)
  | lora_receive_packet (size : ℕ)
  | printf_data (text : List ℕ)
  | lora_destroy
  | am_hal_sysctrl_sleep
  deriving DecidableEq

/-- How a run ended: the code reached the end of what was asked of it, or it is
still inside `while(!lora_init(...))` when the fuel ran out, or it hit an
operation whose behaviour C leaves undefined. -/
inductive Status
  | completed
  | spinning
  | undefined
  deriving DecidableEq

/-- The calls made so far and how the run ended. -/
structure Run where
  trace : List Call
  status : Status

/-- What the collaborators answer during one pass through the loop body. -/
structure Env where
  /-- The answer of `adc_get_sample`: `none` for `false`, `some data` for `true`
  with `data` stored. -/
  sample : Option ℕ
  /-- The content of the uninitialised `buffer[64]`. -/
  stack : Fin 64 → ℕ
  /-- The answer of the `k`-th call of `lora_init`, counted from 0. -/
  init : ℕ → Bool
  /-- The answer of the `k`-th call of `lora_rx_amount`, counted from 0. -/
  rx : ℕ → ℕ
  /-- The bytes of the packet `lora_receive_packet` delivers. -/
  packet : List ℕ

/-- The loop `while(!lora_init(&lora, 915000000));` of main.c:98, from the `k`-th
call on, making at most `fuel` calls: the calls made, and whether the last one
succeeded. -/
def initLoop (init : ℕ → Bool) : ℕ → ℕ → List Call × Bool
  | 0, _ => ([], false)
  | fuel + 1, k =>
    if init k then ([Call.lora_init 915000000 true], true)
    else
      let rest := initLoop init fuel (k + 1)
      (Call.lora_init 915000000 false :: rest.1, rest.2)

/-- The calls of main.c:77 and main.c:92-95, up to the `lora_init` loop. -/
def powerUp (data : ℕ) : List Call :=
  [Call.adc_get_sample (some data), Call.gpio_set true, Call.am_util_delay_ms 10]

/-- The calls of main.c:99-102. -/
def configure : List Call :=
  [Call.lora_standby, Call.lora_set_spreading_factor 7, Call.lora_set_coding_rate 1,
    Call.lora_set_bandwidth 7]

/-- The calls of main.c:117-122. -/
def powerDown : List Call :=
  [Call.lora_destroy, Call.gpio_set false, Call.am_hal_sysctrl_sleep]

/-- One pass through the body of `while (1)` (main.c:76-122) against the
answers `env`, with at most `fuel` calls of `lora_init`. -/
noncomputable def iteration (fuel : ℕ) (env : Env) : Run :=
  match env.sample with
  | none => ⟨[Call.adc_get_sample none, Call.am_hal_sysctrl_sleep], Status.completed⟩
  | some data =>
    let inits := initLoop env.init fuel 0
    if inits.2 = false then ⟨powerUp data ++ inits.1, Status.spinning⟩
    else
      let radio := powerUp data ++ inits.1 ++ configure
      match temperatureField data with
      | none => ⟨radio, Status.undefined⟩
      | some field =>
        let buffer := encodeField env.stack field
        match strlen buffer with
        | none => ⟨radio, Status.undefined⟩
        | some len =>
          let sent := radio ++
            [Call.lora_send_packet (buffer.take len) len, Call.lora_rx_amount (env.rx 0)]
          if env.rx 0 = 0 then ⟨sent ++ powerDown, Status.completed⟩
          else
            let received := sent ++
              [Call.lora_rx_amount (env.rx 1), Call.printf_length (env.rx 1),
                Call.lora_receive_packet 32]
            match cstring (lora_receive_packet buffer 32 env.packet) with
            | none => ⟨received, Status.undefined⟩
            | some text => ⟨received ++ [Call.printf_data text] ++ powerDown, Status.completed⟩

/-- The first `envs.length` passes through `while (1)` (main.c:72-123), one
`Env` per pass; the run stops at the first pass that does not complete. -/
noncomputable def mainLoop (fuel : ℕ) : List Env → Run
  | [] => ⟨[], Status.completed⟩
  | env :: envs =>
    match (iteration fuel env).status with
    | Status.completed =>
      ⟨(iteration fuel env).trace ++ (mainLoop fuel envs).trace, (mainLoop fuel envs).status⟩
    | status => ⟨(iteration fuel env).trace, status⟩

/-! ## The radio as the calls see it -/

/-- The power line of the radio and whether a radio session is alive. -/
structure RadioState where
  powered : Bool
  alive : Bool
  deriving DecidableEq

/-- The state after `gpio_init(&lora_power, 10, false)` (main.c:68): the power
line is low and no session exists. -/
def RadioState.idle : RadioState := ⟨false, false⟩

/-- The effect of one call on the radio: `gpio_set` drives the power line, a
successful `lora_init` starts a session, `lora_destroy` ends it. -/
def RadioState.step (s : RadioState) : Call → RadioState
  | Call.gpio_set state => ⟨state, s.alive⟩
  | Call.lora_init _ true => ⟨s.powered, true⟩
  | Call.lora_destroy => ⟨s.powered, false⟩
  | _ => s

/-- The state after a sequence of calls. -/
def RadioState.after (s : RadioState) (calls : List Call) : RadioState :=
  calls.foldl RadioState.step s

/-- The calls of the radio driver. -/
def Call.isRadio : Call → Bool
  | Call.lora_init _ _ => true
  | Call.lora_standby => true
  | Call.lora_set_spreading_factor _ => true
  | Call.lora_set_coding_rate _ => true
  | Call.lora_set_bandwidth _ => true
  | Call.lora_send_packet _ _ => true
  | Call.lora_rx_amount _ => true
  | Call.lora_receive_packet _ => true
  | Call.lora_destroy => true
  | _ => false

/-- The calls of `lora_init`, whatever they answer. -/
def Call.isInit : Call → Bool
  | Call.lora_init _ _ => true
  | _ => false

/-- The calls of `lora_send_packet`. -/
def Call.isSend : Call → Bool
  | Call.lora_send_packet _ _ => true
  | _ => false

/-- The calls of `lora_rx_amount`. -/
def Call.isRxAmount : Call → Bool
  | Call.lora_rx_amount _ => true
  | _ => false

/-- The radio is consistent when a live session implies a powered radio. -/
def RadioState.consistent (s : RadioState) : Bool := !s.alive || s.powered

/-- What a call needs of the state it is made in: `lora_init` a powered radio
without a session, `gpio_set(false)` no session, every other radio call a live
session. -/
def RadioState.allows (s : RadioState) : Call → Bool
  | Call.lora_init _ _ => s.powered && !s.alive
  | Call.gpio_set false => !s.alive
  | c => !c.isRadio || s.alive

/-- A sequence of calls is accepted from a state when every state on the way is
consistent and allows the call made in it. -/
def RadioState.accepts : RadioState → List Call → Bool
  | s, [] => s.consistent
  | s, c :: cs => s.consistent && s.allows c && (s.step c).accepts cs

/-- Answers with a sample of 8192, a radio that initialises at once and a reply
of 5 bytes waiting. -/
def replyEnv : Env :=
  ⟨some 8192, fun _ => 0, fun _ => true, fun _ => 5, [72, 101, 108, 108, 111]⟩

/-- Answers with a sample of 8192, a radio that initialises at the third call
and no reply. -/
def quietEnv : Env :=
  ⟨some 8192, fun _ => 0, fun k => decide (2 ≤ k), fun _ => 0, []⟩

/-! ## Facts about the arithmetic -/

theorem adcMax_eq : adcMax = 16383 := by decide

theorem magnitude_cast : ((magnitude : ℤ) : ℝ) = 10000 := by
  norm_num [magnitude]

theorem voltage_eq (data : ℕ) : voltage data = (data : ℚ) * (3 / 2) / 16383 := by
  unfold voltage reference
  rw [adcMax_eq]
  norm_num

theorem discriminant_eq (v : ℚ) :
    discriminant v = 30.316036 + 0.00704 * (870.6 - v * 1000) := by
  unfold discriminant
  norm_num

theorem voltage_nonneg (data : ℕ) : 0 ≤ voltage data := by
  rw [voltage_eq]
  positivity

theorem voltage_le (data : ℕ) (h : data ≤ 16383) : voltage data ≤ 3 / 2 := by
  rw [voltage_eq]
  have h1 : (data : ℚ) ≤ 16383 := by exact_mod_cast h
  rw [div_le_iff₀ (by norm_num)]
  linarith

theorem discriminant_pos_of_le (v : ℚ) (h : v ≤ 3 / 2) : 0 < discriminant v := by
  rw [discriminant_eq]
  norm_num
  linarith

/-- C6: for every raw sample in [0, 16383] the voltage
`data * 1.5 / ((1 << 14) - 1)` lies in [0, 1.5]; sample 0 gives 0 and sample
16383 gives 1.5 (exact rational arithmetic). -/
theorem voltage_range (data : ℕ) (h : data ≤ 16383) :
    (0 ≤ voltage data ∧ voltage data ≤ 1.5) ∧ voltage 0 = 0 ∧ voltage 16383 = 1.5 := by
  refine ⟨⟨voltage_nonneg data, ?_⟩, ?_, ?_⟩
  · have := voltage_le data h
    norm_num
    linarith
  · rw [voltage_eq]; norm_num
  · rw [voltage_eq]; norm_num

theorem voltage_range_witness :
    (8192 : ℕ) ≤ 16383 ∧
      ((0 ≤ voltage 8192 ∧ voltage 8192 ≤ 1.5) ∧ voltage 0 = 0 ∧ voltage 16383 = 1.5) :=
  ⟨by decide, voltage_range 8192 (by decide)⟩

/-- C4: for every raw sample in [0, 16383] the expression under the square
root of the temperature formula, `5.506^2 + 4 * 0.00176 * (870.6 - voltage*1000)`,
is strictly positive, so the square root is taken inside its domain: it is a
positive real number whose square is that expression. -/
theorem sqrt_argument_positive (data : ℕ) (h : data ≤ 16383) :
    0 < discriminant (voltage data) ∧
      discriminant (voltage data) =
        5.506 ^ 2 + 4 * 0.00176 * (870.6 - voltage data * 1000) ∧
      Real.sqrt ((discriminant (voltage data) : ℚ) : ℝ) ^ 2
        = ((discriminant (voltage data) : ℚ) : ℝ) ∧
      0 < Real.sqrt ((discriminant (voltage data) : ℚ) : ℝ) := by
  have hpos : 0 < discriminant (voltage data) :=
    discriminant_pos_of_le _ (voltage_le data h)
  have hposR : (0 : ℝ) < ((discriminant (voltage data) : ℚ) : ℝ) := by exact_mod_cast hpos
  refine ⟨hpos, ?_, Real.sq_sqrt hposR.le, Real.sqrt_pos.mpr hposR⟩
  unfold discriminant
  norm_num

theorem sqrt_argument_positive_witness :
    (16383 : ℕ) ≤ 16383 ∧
      (0 < discriminant (voltage 16383) ∧
        discriminant (voltage 16383) =
          5.506 ^ 2 + 4 * 0.00176 * (870.6 - voltage 16383 * 1000) ∧
        Real.sqrt ((discriminant (voltage 16383) : ℚ) : ℝ) ^ 2
          = ((discriminant (voltage 16383) : ℚ) : ℝ) ∧
        0 < Real.sqrt ((discriminant (voltage 16383) : ℚ) : ℝ)) :=
  ⟨le_refl _, sqrt_argument_positive 16383 (le_refl _)⟩

theorem sqrt_discriminant_bounds :
    (5.6324032 : ℝ) < Real.sqrt ((discriminant 0.6706 : ℚ) : ℝ) ∧
      Real.sqrt ((discriminant 0.6706 : ℚ) : ℝ) < 5.6324384 := by
  have hd : ((discriminant 0.6706 : ℚ) : ℝ) = 31.724036 := by
    rw [discriminant_eq]; norm_num
  rw [hd]
  constructor
  · rw [Real.lt_sqrt (by norm_num)]; norm_num
  · rw [Real.sqrt_lt' (by norm_num)]; norm_num

theorem temperature_6706_bounds :
    (65.91 : ℝ) < temperature 0.6706 ∧ temperature 0.6706 < 65.92 := by
  obtain ⟨h1, h2⟩ := sqrt_discriminant_bounds
  unfold temperature
  constructor
  · rw [← sub_lt_iff_lt_add, lt_div_iff_of_neg (by norm_num)]
    norm_num
    norm_num at h1
    linarith
  · rw [← lt_sub_iff_add_lt, div_lt_iff_of_neg (by norm_num)]
    norm_num
    norm_num at h2
    linarith

/-- C5, as stated, fails: at voltage 0.6706 V the temperature formula does not
give a value within 1 degree of 25.0. -/
theorem temperature_6706_not_near_25 : ¬ |temperature 0.6706 - 25| ≤ 1 := by
  intro h
  have h1 := temperature_6706_bounds.1
  have h2 := (abs_le.mp h).2
  linarith

/-- C5, amended: at voltage 0.6706 V (the voltage of raw sample 7325 cut to
four decimals) the temperature formula gives a value within 1 degree of 65.9;
it lies strictly between 65.91 and 65.92. -/
theorem temperature_6706_near_65_9 :
    ((0.6706 : ℚ) ≤ voltage 7325 ∧ voltage 7325 < 0.6707) ∧
    |temperature 0.6706 - 65.9| ≤ 1 ∧
      (65.91 : ℝ) < temperature 0.6706 ∧ temperature 0.6706 < 65.92 := by
  obtain ⟨h1, h2⟩ := temperature_6706_bounds
  refine ⟨?_, abs_le.mpr ⟨by linarith, by linarith⟩, h1, h2⟩
  rw [voltage_eq]
  norm_num

/-- C9, as stated, fails: the voltage of raw sample 8192 is below 0.75006. -/
theorem voltage_8192_not_75006 :
    ¬ ((0.75006 : ℚ) ≤ voltage 8192 ∧ voltage 8192 < 0.75007) := by
  rw [voltage_eq]
  norm_num

/-- C9, amended: the voltage of raw sample 8192 is 0.75004..., that is
0.75004 ≤ voltage < 0.75005. -/
theorem voltage_8192_digits :
    (0.75004 : ℚ) ≤ voltage 8192 ∧ voltage 8192 < 0.75005 := by
  rw [voltage_eq]
  norm_num

theorem digitChar_ne_nul (n : ℕ) : (Nat.digitChar (n % 10)).toNat ≠ 0 := by
  have h : ∀ d, d < 10 → (Nat.digitChar d).toNat ≠ 0 := by decide
  exact h _ (Nat.mod_lt _ (by decide))

theorem toDigitsCore_ne_nul (fuel : ℕ) :
    ∀ (n : ℕ) (acc : List Char), (∀ c ∈ acc, c.toNat ≠ 0) →
      ∀ c ∈ Nat.toDigitsCore 10 fuel n acc, c.toNat ≠ 0 := by
  induction fuel with
  | zero => intro n acc hacc c hc; exact hacc c (by simpa [Nat.toDigitsCore] using hc)
  | succ fuel ih =>
    intro n acc hacc c hc
    have hcons : ∀ c ∈ Nat.digitChar (n % 10) :: acc, c.toNat ≠ 0 := by
      intro c hc
      rcases List.mem_cons.mp hc with rfl | hc
      · exact digitChar_ne_nul n
      · exact hacc c hc
    simp only [Nat.toDigitsCore] at hc
    split at hc
    · exact hcons c hc
    · exact ih _ _ hcons c hc

theorem toDigitsCore_length_ge (fuel : ℕ) :
    ∀ (n : ℕ) (acc : List Char), acc.length ≤ (Nat.toDigitsCore 10 fuel n acc).length := by
  induction fuel with
  | zero => intro n acc; simp [Nat.toDigitsCore]
  | succ fuel ih =>
    intro n acc
    simp only [Nat.toDigitsCore]
    split
    · simp
    · exact le_trans (by simp) (ih _ _)

theorem toDigits_length_pos (n : ℕ) : 1 ≤ (Nat.toDigits 10 n).length := by
  unfold Nat.toDigits
  simp only [Nat.toDigitsCore]
  split
  · simp
  · exact le_trans (by simp) (toDigitsCore_length_ge _ _ _)

theorem toDigits_length_le (n : ℕ) (h : n < 10 ^ 10) : (Nat.toDigits 10 n).length ≤ 10 :=
  Nat.toDigitsCore_length 10 (by decide) (n + 1) n 10 h (by decide)

theorem toDigits_ne_nul (n : ℕ) : ∀ c ∈ Nat.toDigits 10 n, c.toNat ≠ 0 :=
  toDigitsCore_ne_nul _ _ _ (by simp)

/-- Every 32-bit `int` prints with `%i` as 1 to 11 characters. -/
theorem fmtInt_length (i : ℤ) (hlo : -2147483648 ≤ i) (hhi : i ≤ 2147483647) :
    1 ≤ (fmtInt i).length ∧ (fmtInt i).length ≤ 11 := by
  have hn : i.natAbs < 10 ^ 10 := by omega
  have h1 := toDigits_length_pos i.natAbs
  have h2 := toDigits_length_le i.natAbs hn
  unfold fmtInt
  split
  · simp only [List.length_cons]; omega
  · omega

theorem fmtInt_ne_nul (i : ℤ) : ∀ c ∈ fmtInt i, c.toNat ≠ 0 := by
  intro c hc
  unfold fmtInt at hc
  split at hc
  · rcases List.mem_cons.mp hc with rfl | hc
    · decide
    · exact toDigits_ne_nul _ c hc
  · exact toDigits_ne_nul _ c hc

theorem payloadText_length (t : ℤ) :
    (payloadText t 10000).length = 39 + (fmtInt t).length := by
  have h : (fmtInt 10000).length = 5 := by decide
  have e1 : (String.toList "\x7b \"temperature\": ").length = 17 := by decide
  have e2 : (String.toList ", \"magnitude\": ").length = 15 := by decide
  have e3 : (String.toList " \x7d").length = 2 := by decide
  simp only [payloadText, List.length_append, h, e1, e2, e3]
  omega

theorem payloadText_ne_nul (t : ℤ) : ∀ c ∈ payloadText t 10000, c.toNat ≠ 0 := by
  intro c hc
  simp only [payloadText, List.mem_append] at hc
  rcases hc with (((hc | hc) | hc) | hc) | hc
  · revert c; decide
  · exact fmtInt_ne_nul _ c hc
  · revert c; decide
  · revert c; decide
  · revert c; decide

theorem strlen_append_nul (l r : List ℕ) (h : ∀ b ∈ l, b ≠ 0) :
    strlen (l ++ 0 :: r) = some l.length := by
  induction l with
  | nil => simp [strlen]
  | cons b bs ih =>
    have hb : b ≠ 0 := h b (by simp)
    have hbs : ∀ x ∈ bs, x ≠ 0 := fun x hx => h x (by simp [hx])
    simp [strlen, hb, ih hbs]

theorem strlen_of_nul (l : List ℕ) :
    ∀ n, l[n]? = some 0 → ∃ m, strlen l = some m ∧ m ≤ n := by
  induction l with
  | nil => intro n h; simp at h
  | cons b bs ih =>
    intro n h
    by_cases hb : b = 0
    · exact ⟨0, by simp [strlen, hb], Nat.zero_le _⟩
    · cases n with
      | zero => simp at h; exact absurd h hb
      | succ n =>
        obtain ⟨m, hm, hle⟩ := ih n (by simpa using h)
        exact ⟨m + 1, by simp [strlen, hb, hm], by omega⟩

theorem cstring_append_nul (l r : List ℕ) (h : ∀ b ∈ l, b ≠ 0) :
    cstring (l ++ 0 :: r) = some l := by
  simp [cstring, strlen_append_nul l r h]

theorem bytes_ne_nul (text : List Char) (h : ∀ c ∈ text, c.toNat ≠ 0) :
    ∀ b ∈ bytes text, b ≠ 0 := by
  intro b hb
  simp only [bytes, List.mem_map] at hb
  obtain ⟨c, hc, rfl⟩ := hb
  exact h c hc

theorem bytes_length (text : List Char) : (bytes text).length = text.length := by
  simp [bytes]

/-- The buffer after `snprintf` when the text fits: the text, a null byte, and
the old bytes behind it. -/
theorem snprintf_fits (buffer : List ℕ) (size : ℕ) (text : List Char)
    (h : text.length < size) :
    snprintf buffer size text = bytes text ++ 0 :: buffer.drop (text.length + 1) := by
  have hs : size ≠ 0 := by omega
  have ht : text.take (size - 1) = text := List.take_of_length_le (by omega)
  simp [snprintf, hs, ht, bytes_length]

theorem payloadText_length_bounds (field : ℤ) (hlo : -2147483648 ≤ field)
    (hhi : field ≤ 2147483647) :
    40 ≤ (payloadText field 10000).length ∧ (payloadText field 10000).length ≤ 50 := by
  have h := fmtInt_length field hlo hhi
  rw [payloadText_length]
  omega

theorem encodeField_eq (stack : Fin 64 → ℕ) (field : ℤ) (hlo : -2147483648 ≤ field)
    (hhi : field ≤ 2147483647) :
    encodeField stack field = bytes (payloadText field 10000)
      ++ 0 :: (List.ofFn stack).drop ((payloadText field 10000).length + 1) := by
  have h := payloadText_length_bounds field hlo hhi
  show snprintf (List.ofFn stack) 64 (payloadText field 10000) = _
  exact snprintf_fits _ _ _ (by omega)

theorem encodeField_length (stack : Fin 64 → ℕ) (field : ℤ) (hlo : -2147483648 ≤ field)
    (hhi : field ≤ 2147483647) : (encodeField stack field).length = 64 := by
  have h := payloadText_length_bounds field hlo hhi
  rw [encodeField_eq stack field hlo hhi]
  simp [bytes_length]
  omega

theorem strlen_encodeField (stack : Fin 64 → ℕ) (field : ℤ) (hlo : -2147483648 ≤ field)
    (hhi : field ≤ 2147483647) :
    strlen (encodeField stack field) = some (payloadText field 10000).length := by
  rw [encodeField_eq stack field hlo hhi,
    strlen_append_nul _ _ (bytes_ne_nul _ (payloadText_ne_nul field)), bytes_length]

theorem take_encodeField (stack : Fin 64 → ℕ) (field : ℤ) (hlo : -2147483648 ≤ field)
    (hhi : field ≤ 2147483647) :
    (encodeField stack field).take (payloadText field 10000).length
      = bytes (payloadText field 10000) := by
  rw [encodeField_eq stack field hlo hhi, ← bytes_length, List.take_left]

theorem toInt_eq (x : ℝ) (hlo : -2147483648 ≤ x) (hhi : x ≤ 2147483647) :
    toInt x = some (if 0 ≤ x then ⌊x⌋ else ⌈x⌉) := by
  have h : -2147483649 < x ∧ x < 2147483648 := ⟨by linarith, by linarith⟩
  simp [toInt, h]

theorem toInt_range (x : ℝ) (T : ℤ) (h : toInt x = some T) :
    -2147483648 ≤ T ∧ T ≤ 2147483647 := by
  unfold toInt at h
  split at h
  · rename_i hx
    obtain ⟨h1, h2⟩ := hx
    simp only [Option.some.injEq] at h
    subst h
    split
    · rename_i h0
      constructor
      · have : (0 : ℤ) ≤ ⌊x⌋ := Int.floor_nonneg.mpr h0
        omega
      · have : ⌊x⌋ < 2147483648 := by
          rw [Int.floor_lt]; exact_mod_cast h2
        omega
    · rename_i h0
      constructor
      · have : (-2147483649 : ℤ) < ⌈x⌉ := by
          rw [Int.lt_ceil]; exact_mod_cast h1
        omega
      · have : ⌈x⌉ ≤ 0 := by
          rw [Int.ceil_le]; push_cast; linarith
        omega
  · simp at h

theorem getElem?_append_cons (l r : List ℕ) (a : ℕ) : (l ++ a :: r)[l.length]? = some a := by
  induction l with
  | nil => simp
  | cons b bs ih => simpa using ih

theorem cstring_encodeField (stack : Fin 64 → ℕ) (field : ℤ) (hlo : -2147483648 ≤ field)
    (hhi : field ≤ 2147483647) :
    cstring (encodeField stack field) = some (bytes (payloadText field 10000)) := by
  rw [encodeField_eq stack field hlo hhi]
  exact cstring_append_nul _ _ (bytes_ne_nul _ (payloadText_ne_nul field))

theorem roundEven_eq (y : ℝ) (m : ℤ) (h : |y - m| < 1 / 2) : roundEven y = m := by
  obtain ⟨h1, h2⟩ := abs_lt.mp h
  by_cases hge : (m : ℝ) ≤ y
  · have hfl : ⌊y⌋ = m := by
      rw [Int.floor_eq_iff]; constructor <;> linarith
    have hlt : y - ((⌊y⌋ : ℤ) : ℝ) < 1 / 2 := by rw [hfl]; linarith
    rw [roundEven, if_pos hlt, hfl]
  · have hy : y < m := lt_of_not_ge hge
    have hfl : ⌊y⌋ = m - 1 := by
      rw [Int.floor_eq_iff]; push_cast; constructor <;> linarith
    have hnot : ¬ y - ((⌊y⌋ : ℤ) : ℝ) < 1 / 2 := by rw [hfl]; push_cast; linarith
    have hgt : 1 / 2 < y - ((⌊y⌋ : ℤ) : ℝ) := by rw [hfl]; push_cast; linarith
    rw [roundEven, if_neg hnot, if_pos hgt, hfl]
    ring

theorem ulpExp_eq (x : ℝ) (e : ℤ) (he : -1022 ≤ e) (h1 : (2 : ℝ) ^ e ≤ |x|)
    (h2 : |x| < (2 : ℝ) ^ (e + 1)) : ulpExp x = e - 52 := by
  have hpos : 0 < |x| := lt_of_lt_of_le (by positivity) h1
  have hlog : Int.log 2 |x| = e := by
    apply le_antisymm
    · have := (Int.lt_zpow_iff_log_lt (b := 2) (by norm_num) hpos (x := e + 1)).mp
        (by exact_mod_cast h2)
      omega
    · exact (Int.zpow_le_iff_le_log (b := 2) (by norm_num) hpos).mp (by exact_mod_cast h1)
  rw [ulpExp, hlog, max_eq_left he]

/-- The value of `fl` at a normal `x`, from the power of two under `|x|` and the
multiple of the spacing within half a spacing of `x`. -/
theorem fl_eq (x : ℝ) (e m : ℤ) (he : -1022 ≤ e) (h1 : (2 : ℝ) ^ e ≤ |x|)
    (h2 : |x| < (2 : ℝ) ^ (e + 1)) (hm : |x / 2 ^ (e - 52) - m| < 1 / 2) :
    fl x = m * 2 ^ (e - 52) := by
  rw [fl, ulpExp_eq x e he h1 h2, roundEven_eq _ m hm]

/-- The rounding of the product matters: for the `double` written `-88.8249`,
which is `-6250496664706587 / 2 ^ 46`, the exact product with 10000 lies just
above -888249, and the `double` product is -888249. -/
theorem dmul_88_8249 :
    fl (-88.8249) = -6250496664706587 / 70368744177664 ∧
    (-888249 : ℝ) < -6250496664706587 / 70368744177664 * 10000 ∧
    dmul (-6250496664706587 / 70368744177664) 10000 = -888249 := by
  refine ⟨?_, by norm_num, ?_⟩
  · rw [fl_eq _ 6 (-6250496664706587) (by norm_num) (by norm_num [abs_of_neg])
      (by norm_num [abs_of_neg]) (by norm_num [abs_lt])]
    norm_num
  · rw [dmul, fl_eq _ 19 (-7630000811409408) (by norm_num) (by norm_num [abs_of_neg])
      (by norm_num [abs_of_neg]) (by norm_num [abs_lt])]
    norm_num

theorem toInt_intCast (n : ℤ) (hlo : -2147483648 ≤ n) (hhi : n ≤ 2147483647) :
    toInt (n : ℝ) = some n := by
  rw [toInt_eq _ (by exact_mod_cast hlo) (by exact_mod_cast hhi)]
  split <;> simp

theorem encode_eq (stack : Fin 64 → ℕ) (t : ℝ) (T : ℤ) (h : toInt (dmul t 10000) = some T) :
    encode stack t = some (encodeField stack T) := by
  simp [encode, magnitude_cast, h]

/-- The encoder at the `double` written `-88.8249`: the product is -888249 and
the text is `{ "temperature": -888249, "magnitude": 10000 }`. -/
theorem encode_88_8249 (stack : Fin 64 → ℕ) :
    ∃ buffer, encode stack (fl (-88.8249)) = some buffer ∧
      cstring buffer = some [123, 32, 34, 116, 101, 109, 112, 101, 114, 97, 116, 117, 114,
        101, 34, 58, 32, 45, 56, 56, 56, 50, 52, 57, 44, 32, 34, 109, 97, 103, 110, 105, 116,
        117, 100, 101, 34, 58, 32, 49, 48, 48, 48, 48, 32, 125] := by
  have hprod : dmul (fl (-88.8249)) 10000 = ((-888249 : ℤ) : ℝ) := by
    rw [dmul_88_8249.1, dmul_88_8249.2.2]; norm_num
  have hT : toInt (dmul (fl (-88.8249)) 10000) = some (-888249) := by
    rw [hprod]; exact toInt_intCast (-888249) (by norm_num) (by norm_num)
  refine ⟨encodeField stack (-888249), encode_eq stack _ _ hT, ?_⟩
  rw [cstring_encodeField stack (-888249) (by norm_num) (by norm_num)]
  have h : bytes (payloadText (-888249) 10000)
      = [123, 32, 34, 116, 101, 109, 112, 101, 114, 97, 116, 117, 114,
        101, 34, 58, 32, 45, 56, 56, 56, 50, 52, 57, 44, 32, 34, 109, 97, 103, 110, 105, 116,
        117, 100, 101, 34, 58, 32, 49, 48, 48, 48, 48, 32, 125] := by decide
  rw [h]

/-- C3: for every 32-bit `int` in the temperature field, the most negative one
included, the text `snprintf` formats is at most 63 characters, so nothing is
cut and the 64-byte buffer holds the text and its null terminator (the buffer
is still 64 bytes, the byte after the text is null, the bytes before it are the
text); `strlen` of the buffer, the length given to `lora_send_packet`, is the
length of the text and at most 63. -/
theorem payload_fits_buffer (stack : Fin 64 → ℕ) (field : ℤ)
    (hlo : -2147483648 ≤ field) (hhi : field ≤ 2147483647) :
    (payloadText field 10000).length ≤ 63 ∧
    (encodeField stack field).length = 64 ∧
    (encodeField stack field).take (payloadText field 10000).length
      = bytes (payloadText field 10000) ∧
    (encodeField stack field)[(payloadText field 10000).length]? = some 0 ∧
    ∃ len, strlen (encodeField stack field) = some len ∧
      len = (payloadText field 10000).length ∧ len ≤ 63 := by
  have h := payloadText_length_bounds field hlo hhi
  refine ⟨by omega, encodeField_length stack field hlo hhi,
    take_encodeField stack field hlo hhi, ?_,
    _, strlen_encodeField stack field hlo hhi, rfl, by omega⟩
  rw [encodeField_eq stack field hlo hhi, ← bytes_length]
  exact getElem?_append_cons _ _ _

theorem payload_fits_buffer_witness :
    ((-2147483648 : ℤ) ≤ -2147483648 ∧ (-2147483648 : ℤ) ≤ 2147483647) ∧
    ((payloadText (-2147483648) 10000).length ≤ 63 ∧
    (encodeField (fun _ => 255) (-2147483648)).length = 64 ∧
    (encodeField (fun _ => 255) (-2147483648)).take (payloadText (-2147483648) 10000).length
      = bytes (payloadText (-2147483648) 10000) ∧
    (encodeField (fun _ => 255) (-2147483648))[(payloadText (-2147483648) 10000).length]?
      = some 0 ∧
    ∃ len, strlen (encodeField (fun _ => 255) (-2147483648)) = some len ∧
      len = (payloadText (-2147483648) 10000).length ∧ len ≤ 63) :=
  ⟨⟨by decide, by decide⟩,
    payload_fits_buffer (fun _ => 255) (-2147483648) (by decide) (by decide)⟩

theorem receive_eq (stack : Fin 64 → ℕ) (field : ℤ) (packet : List ℕ)
    (hlo : -2147483648 ≤ field) (hhi : field ≤ 2147483647) :
    lora_receive_packet (encodeField stack field) 32 packet
      = (packet.take 32 ++ (bytes (payloadText field 10000)).drop (packet.take 32).length)
        ++ 0 :: (List.ofFn stack).drop ((payloadText field 10000).length + 1) := by
  have h := payloadText_length_bounds field hlo hhi
  have hk : (packet.take 32).length ≤ (bytes (payloadText field 10000)).length := by
    rw [bytes_length, List.length_take]
    omega
  rw [lora_receive_packet, encodeField_eq stack field hlo hhi,
    List.drop_append_of_le_length hk, List.append_assoc]

theorem receive_front_length (field : ℤ) (packet : List ℕ)
    (hlo : -2147483648 ≤ field) (hhi : field ≤ 2147483647) :
    (packet.take 32 ++ (bytes (payloadText field 10000)).drop (packet.take 32).length).length
      = (payloadText field 10000).length := by
  have h := payloadText_length_bounds field hlo hhi
  simp only [List.length_append, List.length_drop, bytes_length, List.length_take]
  omega

theorem receive_nul (stack : Fin 64 → ℕ) (field : ℤ) (packet : List ℕ)
    (hlo : -2147483648 ≤ field) (hhi : field ≤ 2147483647) :
    (lora_receive_packet (encodeField stack field) 32 packet)[(payloadText field 10000).length]?
      = some 0 := by
  rw [receive_eq stack field packet hlo hhi, ← receive_front_length field packet hlo hhi]
  exact getElem?_append_cons _ _ _

theorem cstring_receive (stack : Fin 64 → ℕ) (field : ℤ) (packet : List ℕ)
    (hlo : -2147483648 ≤ field) (hhi : field ≤ 2147483647) :
    ∃ text, cstring (lora_receive_packet (encodeField stack field) 32 packet) = some text ∧
      text.length ≤ (payloadText field 10000).length := by
  obtain ⟨m, hm, hle⟩ := strlen_of_nul _ _ (receive_nul stack field packet hlo hhi)
  refine ⟨_, by simp only [cstring, hm, Option.map_some']; rfl, ?_⟩
  simp only [List.length_take]
  omega

/-- C10: for every 32-bit `int` in the temperature field and every received
packet, the payload is 40 to 50 bytes long, so its null terminator sits at an
index in [40, 50], behind the 32 bytes `lora_receive_packet(buffer, 32)` may
write, and is still there after the receive; the buffer printed with `%s` after
the receive therefore ends inside its 64 bytes, and when the packet fills the
32 bytes with non-null bytes the printed text is those 32 bytes followed by the
transmitted payload from offset 32 on. -/
theorem receive_keeps_terminator (stack : Fin 64 → ℕ) (field : ℤ) (packet : List ℕ)
    (hlo : -2147483648 ≤ field) (hhi : field ≤ 2147483647) :
    (40 ≤ (payloadText field 10000).length ∧ (payloadText field 10000).length ≤ 50) ∧
    strlen (encodeField stack field) = some (payloadText field 10000).length ∧
    (lora_receive_packet (encodeField stack field) 32 packet).length = 64 ∧
    (lora_receive_packet (encodeField stack field) 32 packet)[(payloadText field 10000).length]?
      = some 0 ∧
    (∃ text, cstring (lora_receive_packet (encodeField stack field) 32 packet) = some text ∧
      text.length ≤ (payloadText field 10000).length) ∧
    (32 ≤ packet.length → (∀ b ∈ packet.take 32, b ≠ 0) →
      cstring (lora_receive_packet (encodeField stack field) 32 packet)
        = some (packet.take 32 ++ (bytes (payloadText field 10000)).drop 32)) := by
  have h := payloadText_length_bounds field hlo hhi
  refine ⟨h, strlen_encodeField stack field hlo hhi, ?_,
    receive_nul stack field packet hlo hhi, cstring_receive stack field packet hlo hhi, ?_⟩
  · have hlen := encodeField_length stack field hlo hhi
    simp only [lora_receive_packet, List.length_append, List.length_drop, List.length_take, hlen]
    omega
  · intro hp hne
    have hk : (packet.take 32).length = 32 := by
      rw [List.length_take]; omega
    rw [receive_eq stack field packet hlo hhi, hk]
    apply cstring_append_nul
    intro b hb
    rcases List.mem_append.mp hb with hb | hb
    · exact hne b hb
    · exact bytes_ne_nul _ (payloadText_ne_nul field) b (List.mem_of_mem_drop hb)

theorem receive_keeps_terminator_witness :
    ((-2147483648 : ℤ) ≤ -2147483648 ∧ (-2147483648 : ℤ) ≤ 2147483647) ∧
    ((40 ≤ (payloadText (-2147483648) 10000).length
      ∧ (payloadText (-2147483648) 10000).length ≤ 50) ∧
    strlen (encodeField (fun _ => 255) (-2147483648))
      = some (payloadText (-2147483648) 10000).length ∧
    (lora_receive_packet (encodeField (fun _ => 255) (-2147483648)) 32
      (List.replicate 32 65)).length = 64 ∧
    (lora_receive_packet (encodeField (fun _ => 255) (-2147483648)) 32
      (List.replicate 32 65))[(payloadText (-2147483648) 10000).length]? = some 0 ∧
    (∃ text, cstring (lora_receive_packet (encodeField (fun _ => 255) (-2147483648)) 32
        (List.replicate 32 65)) = some text ∧
      text.length ≤ (payloadText (-2147483648) 10000).length) ∧
    (32 ≤ (List.replicate 32 65).length → (∀ b ∈ (List.replicate 32 65).take 32, b ≠ 0) →
      cstring (lora_receive_packet (encodeField (fun _ => 255) (-2147483648)) 32
          (List.replicate 32 65))
        = some ((List.replicate 32 65).take 32
            ++ (bytes (payloadText (-2147483648) 10000)).drop 32))) :=
  ⟨⟨by decide, by decide⟩,
    receive_keeps_terminator (fun _ => 255) (-2147483648) (List.replicate 32 65)
      (by decide) (by decide)⟩

theorem initLoop_succeeds (init : ℕ → Bool) (n : ℕ) :
    ∀ fuel k, (∀ j < n, init (k + j) = false) → init (k + n) = true → n < fuel →
      initLoop init fuel k
        = (List.replicate n (Call.lora_init 915000000 false)
            ++ [Call.lora_init 915000000 true], true) := by
  induction n with
  | zero =>
    intro fuel k _ hok hfuel
    obtain ⟨fuel, rfl⟩ : ∃ f, fuel = f + 1 := ⟨fuel - 1, by omega⟩
    simp only [Nat.add_zero] at hok
    simp [initLoop, hok]
  | succ n ih =>
    intro fuel k hfail hok hfuel
    obtain ⟨fuel, rfl⟩ : ∃ f, fuel = f + 1 := ⟨fuel - 1, by omega⟩
    have h0 : init k = false := by simpa using hfail 0 (by omega)
    have hrest := ih fuel (k + 1)
      (fun j hj => by have := hfail (j + 1) (by omega); rwa [← Nat.add_assoc, Nat.add_right_comm] at this)
      (by rwa [Nat.add_assoc, Nat.add_comm 1 n]) (by omega)
    simp [initLoop, h0, hrest, List.replicate_succ]

theorem sqrt_discriminant_le (data : ℕ) :
    Real.sqrt ((discriminant (voltage data) : ℚ) : ℝ) ≤ 7 := by
  have hv := voltage_nonneg data
  have hd : discriminant (voltage data) ≤ 49 := by
    rw [discriminant_eq]
    norm_num
    nlinarith
  have hdR : ((discriminant (voltage data) : ℚ) : ℝ) ≤ 49 := by exact_mod_cast hd
  rw [Real.sqrt_le_left (by norm_num)]
  norm_num
  exact hdR

theorem temperature_bounds (data : ℕ) :
    -1540 ≤ temperature (voltage data) ∧ temperature (voltage data) ≤ 460 := by
  have h1 := sqrt_discriminant_le data
  have h0 := Real.sqrt_nonneg ((discriminant (voltage data) : ℚ) : ℝ)
  unfold temperature
  constructor
  · rw [← sub_le_iff_le_add, le_div_iff_of_neg (by norm_num)]
    norm_num
    linarith
  · rw [← le_sub_iff_add_le, div_le_iff_of_neg (by norm_num)]
    norm_num
    linarith

/-- For a sample in the 14-bit range the `int` conversion of main.c:108 is
defined. -/
theorem temperatureField_defined (data : ℕ) (h : data ≤ 16383) :
    ∃ field, temperatureField data = some field := by
  have hpos := discriminant_pos_of_le _ (voltage_le data h)
  obtain ⟨h1, h2⟩ := temperature_bounds data
  have hnot : ¬ discriminant (voltage data) < 0 := not_lt.mpr hpos.le
  rw [temperatureField, if_neg hnot, magnitude_cast, toInt_eq _ (by linarith) (by linarith)]
  exact ⟨_, rfl⟩

theorem temperatureField_range (data : ℕ) (field : ℤ) (h : temperatureField data = some field) :
    -2147483648 ≤ field ∧ field ≤ 2147483647 := by
  unfold temperatureField at h
  split at h
  · simp at h
  · exact toInt_range _ _ h

/-- The temperature field of the sample 8192 is 517439, that is 51.7439
degrees. -/
theorem temperatureField_8192 : temperatureField 8192 = some 517439 := by
  have hd : ((discriminant (voltage 8192) : ℚ) : ℝ) = 30.316036 + 0.00704 * (870.6 - 4096 / 5461 * 1000) := by
    rw [discriminant_eq, voltage_eq]; norm_num
  have hlo : (5.582538528 : ℝ) ≤ Real.sqrt ((discriminant (voltage 8192) : ℚ) : ℝ) := by
    rw [hd, Real.le_sqrt' (by norm_num)]; norm_num
  have hhi : Real.sqrt ((discriminant (voltage 8192) : ℚ) : ℝ) < 5.58253888 := by
    rw [hd, Real.sqrt_lt' (by norm_num)]; norm_num
  have h1 : (517439 : ℝ) ≤ temperature (voltage 8192) * 10000 := by
    unfold temperature
    rw [add_mul, div_mul_eq_mul_div, ← sub_le_iff_le_add, le_div_iff_of_neg (by norm_num)]
    norm_num
    norm_num at hlo
    linarith
  have h2 : temperature (voltage 8192) * 10000 < 517440 := by
    unfold temperature
    rw [add_mul, div_mul_eq_mul_div, ← lt_sub_iff_add_lt, div_lt_iff_of_neg (by norm_num)]
    norm_num
    norm_num at hhi
    linarith
  have hnot : ¬ discriminant (voltage 8192) < 0 :=
    not_lt.mpr (discriminant_pos_of_le _ (voltage_le 8192 (by decide))).le
  rw [temperatureField, if_neg hnot, magnitude_cast, toInt_eq _ (by linarith) (by linarith),
    if_pos (by linarith)]
  congr 1
  rw [Int.floor_eq_iff]
  exact ⟨by exact_mod_cast h1, by push_cast; linarith⟩

/-- The calls of one pass that gets a sample in the 14-bit range and whose
`lora_init` succeeds at call `n`, given enough fuel. -/
theorem iteration_trace (fuel : ℕ) (env : Env) (data n : ℕ)
    (hsample : env.sample = some data) (hdata : data ≤ 16383)
    (hfail : ∀ j < n, env.init j = false) (hok : env.init n = true) (hfuel : n < fuel) :
    ∃ field text, temperatureField data = some field ∧
      cstring (lora_receive_packet (encodeField env.stack field) 32 env.packet) = some text ∧
      iteration fuel env =
        ⟨[Call.adc_get_sample (some data), Call.gpio_set true, Call.am_util_delay_ms 10]
          ++ List.replicate n (Call.lora_init 915000000 false)
          ++ [Call.lora_init 915000000 true, Call.lora_standby,
              Call.lora_set_spreading_factor 7, Call.lora_set_coding_rate 1,
              Call.lora_set_bandwidth 7,
              Call.lora_send_packet (bytes (payloadText field 10000))
                (payloadText field 10000).length,
              Call.lora_rx_amount (env.rx 0)]
          ++ (if env.rx 0 = 0 then []
              else [Call.lora_rx_amount (env.rx 1), Call.printf_length (env.rx 1),
                Call.lora_receive_packet 32, Call.printf_data text])
          ++ [Call.lora_destroy, Call.gpio_set false, Call.am_hal_sysctrl_sleep],
          Status.completed⟩ := by
  obtain ⟨field, hfield⟩ := temperatureField_defined data hdata
  obtain ⟨hlo, hhi⟩ := temperatureField_range data field hfield
  obtain ⟨text, htext, -⟩ := cstring_receive env.stack field env.packet hlo hhi
  have hinit := initLoop_succeeds env.init n fuel 0 (by simpa using hfail) (by simpa using hok)
    hfuel
  refine ⟨field, text, hfield, htext, ?_⟩
  simp only [iteration, hsample, hinit, hfield, strlen_encodeField env.stack field hlo hhi,
    take_encodeField env.stack field hlo hhi, htext]
  by_cases hrx : env.rx 0 = 0
  · simp [hrx, powerUp, configure, powerDown]
  · simp [hrx, powerUp, configure, powerDown]

/-- The end-to-end pass for the sample 8192 with two failed `lora_init` and no
reply: the payload sent is `{ "temperature": 517439, "magnitude": 10000 }`, 45
bytes. -/
theorem quietEnv_run :
    iteration 3 quietEnv =
      ⟨[Call.adc_get_sample (some 8192), Call.gpio_set true, Call.am_util_delay_ms 10,
        Call.lora_init 915000000 false, Call.lora_init 915000000 false,
        Call.lora_init 915000000 true, Call.lora_standby,
        Call.lora_set_spreading_factor 7, Call.lora_set_coding_rate 1,
        Call.lora_set_bandwidth 7,
        Call.lora_send_packet
          (bytes (String.toList "\x7b \"temperature\": 517439, \"magnitude\": 10000 \x7d")) 45,
        Call.lora_rx_amount 0,
        Call.lora_destroy, Call.gpio_set false, Call.am_hal_sysctrl_sleep],
        Status.completed⟩ := by
  obtain ⟨field, text, hfield, -, h⟩ := iteration_trace 3 quietEnv 8192 2 rfl (by decide)
    (by decide) rfl (by decide)
  rw [temperatureField_8192] at hfield
  obtain rfl : 517439 = field := by simpa using hfield
  have hp : payloadText 517439 10000
      = String.toList "\x7b \"temperature\": 517439, \"magnitude\": 10000 \x7d" := by decide
  have hrx : quietEnv.rx 0 = 0 := rfl
  rw [h, hp, hrx]
  rfl

/-- C1, as stated, fails: with a sample of 8192, a radio that initialises at
once and a reply waiting (`lora_rx_amount` answers 5), the pass completes and
its calls hold one `lora_send_packet` but two calls of `lora_rx_amount`, not
one. -/
theorem reply_polls_twice :
    (iteration 1 replyEnv).status = Status.completed ∧
    (iteration 1 replyEnv).trace.countP Call.isSend = 1 ∧
    (iteration 1 replyEnv).trace.countP Call.isRxAmount = 2 ∧
    ¬ (iteration 1 replyEnv).trace.countP Call.isRxAmount = 1 := by
  obtain ⟨field, text, -, -, h⟩ := iteration_trace 1 replyEnv 8192 0 rfl (by decide)
    (by intro j hj; omega) rfl (by decide)
  rw [h]
  simp [replyEnv, Call.isSend, Call.isRxAmount]

/-- C1, amended: in a pass where `adc_get_sample` yields a raw sample (at most
16383) and `lora_init` succeeds at its call number `n`, whatever the radio
replies, the calls are exactly: `adc_get_sample`, `gpio_set(true)`, the 10 ms
delay, `n` failed `lora_init`, the successful `lora_init`, standby, spreading
factor 7, coding rate 1, bandwidth 7, one `lora_send_packet` whose bytes and
length are the encoded payload of the sample, one `lora_rx_amount`; when that
call answers non-zero, a second `lora_rx_amount` (for the printed length), the
print, `lora_receive_packet(buffer, 32)` and the print of the buffer; then
`lora_destroy`, `gpio_set(false)` and the sleep. So the transmit, the power-on
and the power-off each occur exactly once, and `lora_rx_amount` occurs once
when it answers zero and twice otherwise. -/
theorem iteration_calls (fuel : ℕ) (env : Env) (data n : ℕ)
    (hsample : env.sample = some data) (hdata : data ≤ 16383)
    (hfail : ∀ j < n, env.init j = false) (hok : env.init n = true) (hfuel : n < fuel) :
    ∃ field text, temperatureField data = some field ∧
      (iteration fuel env).status = Status.completed ∧
      (iteration fuel env).trace =
        [Call.adc_get_sample (some data), Call.gpio_set true, Call.am_util_delay_ms 10]
          ++ List.replicate n (Call.lora_init 915000000 false)
          ++ [Call.lora_init 915000000 true, Call.lora_standby,
              Call.lora_set_spreading_factor 7, Call.lora_set_coding_rate 1,
              Call.lora_set_bandwidth 7,
              Call.lora_send_packet (bytes (payloadText field 10000))
                (payloadText field 10000).length,
              Call.lora_rx_amount (env.rx 0)]
          ++ (if env.rx 0 = 0 then []
              else [Call.lora_rx_amount (env.rx 1), Call.printf_length (env.rx 1),
                Call.lora_receive_packet 32, Call.printf_data text])
          ++ [Call.lora_destroy, Call.gpio_set false, Call.am_hal_sysctrl_sleep] ∧
      (iteration fuel env).trace.countP Call.isSend = 1 ∧
      (iteration fuel env).trace.countP Call.isRxAmount = (if env.rx 0 = 0 then 1 else 2) ∧
      (iteration fuel env).trace.count (Call.gpio_set true) = 1 ∧
      (iteration fuel env).trace.count (Call.am_util_delay_ms 10) = 1 ∧
      (iteration fuel env).trace.count (Call.gpio_set false) = 1 ∧
      (iteration fuel env).trace.count Call.lora_destroy = 1 := by
  obtain ⟨field, text, hfield, -, h⟩ :=
    iteration_trace fuel env data n hsample hdata hfail hok hfuel
  refine ⟨field, text, hfield, by rw [h], by rw [h], ?_⟩
  rw [h]
  by_cases hrx : env.rx 0 = 0
  · simp [hrx, Call.isSend, Call.isRxAmount, List.count_replicate, List.countP_replicate]
  · simp [hrx, Call.isSend, Call.isRxAmount, List.count_replicate, List.countP_replicate]

theorem after_nil (s : RadioState) : s.after [] = s := rfl

theorem after_cons (s : RadioState) (c : Call) (l : List Call) :
    s.after (c :: l) = (s.step c).after l := rfl

theorem after_append (s : RadioState) (l₁ l₂ : List Call) :
    s.after (l₁ ++ l₂) = (s.after l₁).after l₂ := by
  simp [RadioState.after, List.foldl_append]

theorem accepts_consistent (s : RadioState) (l : List Call) (h : s.accepts l = true) :
    s.consistent = true := by
  cases l with
  | nil => simpa [RadioState.accepts] using h
  | cons c cs =>
    simp only [RadioState.accepts, Bool.and_eq_true] at h
    exact h.1.1

theorem accepts_append (l₁ l₂ : List Call) :
    ∀ s : RadioState, s.accepts l₁ = true → (s.after l₁).accepts l₂ = true →
      s.accepts (l₁ ++ l₂) = true := by
  induction l₁ with
  | nil => intro s _ h; simpa [after_nil] using h
  | cons c cs ih =>
    intro s h1 h2
    simp only [RadioState.accepts, Bool.and_eq_true] at h1
    simp only [List.cons_append, RadioState.accepts, Bool.and_eq_true]
    exact ⟨h1.1, ih _ h1.2 (by simpa [after_cons] using h2)⟩

/-- What acceptance means call by call: every state on the way is consistent
and allows the call made in it. -/
theorem accepts_spec (l : List Call) :
    ∀ (s : RadioState) (k : ℕ), s.accepts l = true →
      (s.after (l.take k)).consistent = true ∧
      ∀ c, l[k]? = some c → (s.after (l.take k)).allows c = true := by
  induction l with
  | nil =>
    intro s k h
    simp only [List.take_nil, after_nil]
    exact ⟨by simpa [RadioState.accepts] using h, by simp⟩
  | cons c cs ih =>
    intro s k h
    have hs := accepts_consistent s _ h
    simp only [RadioState.accepts, Bool.and_eq_true] at h
    cases k with
    | zero =>
      simp only [List.take_zero, after_nil]
      refine ⟨hs, ?_⟩
      intro c' hc'
      simp only [List.getElem?_cons_zero, Option.some.injEq] at hc'
      subst hc'
      exact h.1.2
    | succ k =>
      simp only [List.take_succ_cons, after_cons, List.getElem?_cons_succ]
      exact ih _ k h.2

theorem after_replicate_init (s : RadioState) (f m : ℕ) :
    s.after (List.replicate m (Call.lora_init f false)) = s := by
  induction m with
  | zero => rfl
  | succ m ih => simpa [List.replicate_succ, after_cons, RadioState.step] using ih

theorem accepts_replicate_init (f m : ℕ) (rest : List Call) :
    RadioState.accepts ⟨true, false⟩ (List.replicate m (Call.lora_init f false) ++ rest)
      = RadioState.accepts ⟨true, false⟩ rest := by
  induction m with
  | zero => rfl
  | succ m ih =>
    have h : RadioState.accepts ⟨true, false⟩
        (List.replicate (m + 1) (Call.lora_init f false) ++ rest)
        = RadioState.accepts ⟨true, false⟩
          (List.replicate m (Call.lora_init f false) ++ rest) := by
      simp [List.replicate_succ, RadioState.accepts, RadioState.step, RadioState.consistent,
        RadioState.allows]
    rw [h, ih]

theorem initLoop_shape (init : ℕ → Bool) :
    ∀ fuel k, ∃ m, (initLoop init fuel k).1
      = List.replicate m (Call.lora_init 915000000 false)
        ++ (if (initLoop init fuel k).2 = true then [Call.lora_init 915000000 true] else []) := by
  intro fuel
  induction fuel with
  | zero => intro k; exact ⟨0, by simp [initLoop]⟩
  | succ fuel ih =>
    intro k
    by_cases hk : init k = true
    · exact ⟨0, by simp [initLoop, hk]⟩
    · obtain ⟨m, hm⟩ := ih (k + 1)
      refine ⟨m + 1, ?_⟩
      simp only [initLoop, hk, Bool.false_eq_true, if_false, List.replicate_succ,
        List.cons_append]
      rw [hm]

theorem accepts_powerUp (data m : ℕ) (rest : List Call)
    (h : RadioState.accepts ⟨true, false⟩ rest = true) :
    RadioState.idle.accepts
      (powerUp data ++ (List.replicate m (Call.lora_init 915000000 false) ++ rest)) = true := by
  have h0 : RadioState.idle.accepts
      (powerUp data ++ (List.replicate m (Call.lora_init 915000000 false) ++ rest))
      = RadioState.accepts ⟨true, false⟩
        (List.replicate m (Call.lora_init 915000000 false) ++ rest) := by
    simp [powerUp, RadioState.accepts, RadioState.step, RadioState.consistent,
      RadioState.allows, RadioState.idle, Call.isRadio]
  rw [h0, accepts_replicate_init, h]

theorem after_powerUp (data m : ℕ) (rest : List Call) :
    RadioState.idle.after
      (powerUp data ++ (List.replicate m (Call.lora_init 915000000 false) ++ rest))
      = RadioState.after ⟨true, false⟩ rest := by
  rw [after_append, after_append, after_replicate_init]
  rfl

/-- One pass is accepted from the idle state, and a pass that completes leaves
the radio idle again. -/
theorem iteration_accepts (fuel : ℕ) (env : Env) :
    RadioState.idle.accepts (iteration fuel env).trace = true ∧
    ((iteration fuel env).status = Status.completed →
      RadioState.idle.after (iteration fuel env).trace = RadioState.idle) := by
  obtain ⟨m, hm⟩ := initLoop_shape env.init fuel 0
  unfold iteration
  split
  · exact ⟨rfl, fun _ => rfl⟩
  · rename_i data _
    simp only
    split
    · rename_i hspin
      rw [hm, hspin]
      simp only [Bool.false_eq_true, if_false, List.append_nil]
      refine ⟨?_, by simp⟩
      have h := accepts_powerUp data m [] rfl
      simpa using h
    · rename_i hok
      have hok' : (initLoop env.init fuel 0).2 = true := by simpa using hok
      rw [hm, hok']
      simp only [if_true]
      split
      · simp only [List.append_assoc]
        exact ⟨accepts_powerUp data m _ rfl, by simp⟩
      · split
        · simp only [List.append_assoc]
          exact ⟨accepts_powerUp data m _ rfl, by simp⟩
        · split
          · simp only [List.append_assoc]
            exact ⟨accepts_powerUp data m _ rfl, fun _ => by rw [after_powerUp]; rfl⟩
          · split
            · simp only [List.append_assoc]
              exact ⟨accepts_powerUp data m _ rfl, by simp⟩
            · simp only [List.append_assoc]
              exact ⟨accepts_powerUp data m _ rfl, fun _ => by rw [after_powerUp]; rfl⟩

/-- Every run of the loop is accepted from the idle state. -/
theorem mainLoop_accepts (fuel : ℕ) (envs : List Env) :
    RadioState.idle.accepts (mainLoop fuel envs).trace = true ∧
    ((mainLoop fuel envs).status = Status.completed →
      RadioState.idle.after (mainLoop fuel envs).trace = RadioState.idle) := by
  induction envs with
  | nil => exact ⟨rfl, fun _ => rfl⟩
  | cons env envs ih =>
    obtain ⟨h1, h2⟩ := iteration_accepts fuel env
    unfold mainLoop
    split
    · rename_i hdone
      simp only
      refine ⟨accepts_append _ _ _ h1 (by rw [h2 hdone]; exact ih.1), fun hst => ?_⟩
      rw [after_append, h2 hdone]
      exact ih.2 hst
    · rename_i hnot
      simp only
      exact ⟨h1, fun hst => absurd hst (by simpa using hnot)⟩

/-- A session is alive after a sequence of calls exactly when it was alive
before and no `lora_destroy` occurred, or a successful `lora_init` occurred
with no `lora_destroy` behind it. -/
theorem alive_after_iff (l : List Call) :
    ∀ s : RadioState, (s.after l).alive = true ↔
      (s.alive = true ∧ Call.lora_destroy ∉ l) ∨
      ∃ before between f, l = before ++ Call.lora_init f true :: between
        ∧ Call.lora_destroy ∉ between := by
  induction l with
  | nil => intro s; simp [after_nil]
  | cons c cs ih =>
    intro s
    rw [after_cons, ih]
    have hsplit : ∀ P : List Call → List Call → ℕ → Prop,
        (∃ before between f, c :: cs = before ++ Call.lora_init f true :: between
          ∧ P before between f) ↔
        ((∃ f, c = Call.lora_init f true ∧ P [] cs f) ∨
          ∃ before between f, cs = before ++ Call.lora_init f true :: between
            ∧ P (c :: before) between f) := by
      intro P
      constructor
      · rintro ⟨before, between, f, heq, hP⟩
        cases before with
        | nil =>
          simp only [List.nil_append, List.cons.injEq] at heq
          obtain ⟨rfl, rfl⟩ := heq
          exact Or.inl ⟨f, rfl, hP⟩
        | cons b bs =>
          simp only [List.cons_append, List.cons.injEq] at heq
          obtain ⟨rfl, rfl⟩ := heq
          exact Or.inr ⟨bs, between, f, rfl, hP⟩
      · rintro (⟨f, rfl, hP⟩ | ⟨before, between, f, rfl, hP⟩)
        · exact ⟨[], cs, f, rfl, hP⟩
        · exact ⟨c :: before, between, f, rfl, hP⟩
    rw [hsplit (fun _ between _ => Call.lora_destroy ∉ between)]
    cases c with
    | lora_init f r =>
      cases r with
      | true =>
        simp only [RadioState.step, List.mem_cons, not_or]
        constructor
        · rintro (⟨-, h⟩ | h)
          · exact Or.inr (Or.inl ⟨f, rfl, h⟩)
          · exact Or.inr (Or.inr h)
        · rintro (⟨-, -, h⟩ | ⟨f, -, h⟩ | h)
          · exact Or.inl ⟨trivial, h⟩
          · exact Or.inl ⟨trivial, h⟩
          · exact Or.inr h
      | false => simp [RadioState.step]
    | lora_destroy => simp [RadioState.step]
    | gpio_set b => simp [RadioState.step]
    | _ => simp [RadioState.step]

theorem after_take_succ (l : List Call) (s : RadioState) (k : ℕ) (c : Call)
    (h : l[k]? = some c) : s.after (l.take (k + 1)) = (s.after (l.take k)).step c := by
  rw [List.take_succ, h, after_append]
  rfl

theorem step_alive_of_not_radio (s : RadioState) (c : Call) (h : c.isRadio = false) :
    (s.step c).alive = s.alive := by
  cases c <;> simp_all [RadioState.step, Call.isRadio]

theorem allows_radio (s : RadioState) (c : Call) (h : s.allows c = true)
    (hr : c.isRadio = true) (hi : c.isInit = false) : s.alive = true := by
  cases c <;> simp_all [RadioState.allows, Call.isRadio, Call.isInit]

theorem allows_init (s : RadioState) (c : Call) (h : s.allows c = true)
    (hi : c.isInit = true) : s.powered = true ∧ s.alive = false := by
  cases c <;> simp_all [RadioState.allows, Call.isInit]

theorem allows_power_off (s : RadioState) (h : s.allows (Call.gpio_set false) = true) :
    s.alive = false := by
  simpa [RadioState.allows] using h

theorem not_alive_until_radio (l : List Call) (s : RadioState) (k : ℕ)
    (hk : l[k]? = some Call.lora_destroy) :
    ∀ d, (∀ m other, k < m → m < k + 1 + d → l[m]? = some other → other.isRadio = false) →
      k + 1 + d ≤ l.length → (s.after (l.take (k + 1 + d))).alive = false := by
  intro d
  induction d with
  | zero =>
    intro _ _
    rw [Nat.add_zero, after_take_succ l s k _ hk]
    rfl
  | succ d ih =>
    intro hquiet hlen
    have hlt : k + 1 + d < l.length := by omega
    have hget : l[k + 1 + d]? = some l[k + 1 + d] := List.getElem?_eq_getElem hlt
    have hnot := hquiet (k + 1 + d) _ (by omega) (by omega) hget
    rw [← Nat.add_assoc, after_take_succ l s (k + 1 + d) _ hget,
      step_alive_of_not_radio _ _ hnot]
    exact ih (fun m other h1 h2 => hquiet m other h1 (by omega)) (by omega)

/-- C7: in every state the loop reaches (the state after any number of calls
of any run, from the idle state `gpio_init` leaves), a live session implies a
powered radio; every `lora_init` is called with the radio powered, that is
after `gpio_set(true)`, and every `gpio_set(false)` is called with no session
alive, that is after `lora_destroy`. -/
theorem power_session_invariant (fuel : ℕ) (envs : List Env) (k : ℕ) :
    ((RadioState.idle.after ((mainLoop fuel envs).trace.take k)).alive = true →
      (RadioState.idle.after ((mainLoop fuel envs).trace.take k)).powered = true) ∧
    (∀ f r, (mainLoop fuel envs).trace[k]? = some (Call.lora_init f r) →
      (RadioState.idle.after ((mainLoop fuel envs).trace.take k)).powered = true) ∧
    ((mainLoop fuel envs).trace[k]? = some (Call.gpio_set false) →
      (RadioState.idle.after ((mainLoop fuel envs).trace.take k)).alive = false) := by
  obtain ⟨hcons, hallow⟩ := accepts_spec _ RadioState.idle k (mainLoop_accepts fuel envs).1
  refine ⟨fun halive => ?_, fun f r h => (allows_init _ _ (hallow _ h) rfl).1,
    fun h => allows_power_off _ (hallow _ h)⟩
  simpa [RadioState.consistent, halive] using hcons

/-- C8: in every run of the loop, a radio call other than `lora_init` comes
after a successful `lora_init` with no `lora_destroy` in between; a call of
`lora_init` is made only when every earlier successful `lora_init` has been
followed by a `lora_destroy`, so at most one session is alive; and the first
radio call after a `lora_destroy`, if there is one, is `lora_init`. -/
theorem radio_session_protocol (fuel : ℕ) (envs : List Env) (k : ℕ) (c : Call)
    (h : (mainLoop fuel envs).trace[k]? = some c) :
    (c.isRadio = true → c.isInit = false →
      ∃ before between f,
        (mainLoop fuel envs).trace.take k = before ++ Call.lora_init f true :: between
          ∧ Call.lora_destroy ∉ between) ∧
    (c.isInit = true → ∀ before between f,
      (mainLoop fuel envs).trace.take k = before ++ Call.lora_init f true :: between →
        Call.lora_destroy ∈ between) ∧
    (c = Call.lora_destroy → ∀ j next, k < j →
      (mainLoop fuel envs).trace[j]? = some next → next.isRadio = true →
      (∀ m other, k < m → m < j → (mainLoop fuel envs).trace[m]? = some other →
        other.isRadio = false) →
      next.isInit = true) := by
  have hacc := (mainLoop_accepts fuel envs).1
  have hallow := (accepts_spec _ RadioState.idle k hacc).2 c h
  refine ⟨fun hr hi => ?_, fun hi before between f heq => ?_, ?_⟩
  · have halive := allows_radio _ _ hallow hr hi
    rcases (alive_after_iff _ _).mp halive with ⟨hidle, -⟩ | hex
    · simp [RadioState.idle] at hidle
    · exact hex
  · by_contra hnot
    have halive := (alive_after_iff ((mainLoop fuel envs).trace.take k) RadioState.idle).mpr
      (Or.inr ⟨before, between, f, heq, hnot⟩)
    rw [(allows_init _ _ hallow hi).2] at halive
    exact Bool.noConfusion halive
  · rintro rfl j next hkj hnext hradio hquiet
    obtain ⟨d, rfl⟩ : ∃ d, j = k + 1 + d := ⟨j - (k + 1), by omega⟩
    have hlen : k + 1 + d ≤ (mainLoop fuel envs).trace.length := by
      by_contra hgt
      rw [List.getElem?_eq_none (by omega)] at hnext
      exact Option.noConfusion hnext
    have hdead := not_alive_until_radio _ RadioState.idle k h d hquiet hlen
    have hallow' := (accepts_spec _ RadioState.idle (k + 1 + d) hacc).2 next hnext
    by_contra hinit
    have halive := allows_radio _ _ hallow' hradio (by simpa using hinit)
    rw [hdead] at halive
    exact Bool.noConfusion halive

theorem quietEnv_trace :
    (mainLoop 3 [quietEnv, quietEnv]).trace[12]? = some Call.lora_destroy ∧
    RadioState.idle.after ((mainLoop 3 [quietEnv]).trace.take 6) = ⟨true, true⟩ := by
  obtain ⟨field, text, -, -, h⟩ := iteration_trace 3 quietEnv 8192 2 rfl (by decide)
    (by decide) rfl (by decide)
  have hrx : quietEnv.rx 0 = 0 := rfl
  simp only [mainLoop, h, hrx, if_true]
  constructor
  · simp [List.replicate]
  · simp [List.replicate, RadioState.after, RadioState.step, RadioState.idle]

theorem iteration_calls_witness :
    (quietEnv.sample = some 8192 ∧ 8192 ≤ 16383 ∧ (∀ j < 2, quietEnv.init j = false) ∧
      quietEnv.init 2 = true ∧ 2 < 3) ∧
    ∃ field text, temperatureField 8192 = some field ∧
      (iteration 3 quietEnv).status = Status.completed ∧
      (iteration 3 quietEnv).trace =
        [Call.adc_get_sample (some 8192), Call.gpio_set true, Call.am_util_delay_ms 10]
          ++ List.replicate 2 (Call.lora_init 915000000 false)
          ++ [Call.lora_init 915000000 true, Call.lora_standby,
              Call.lora_set_spreading_factor 7, Call.lora_set_coding_rate 1,
              Call.lora_set_bandwidth 7,
              Call.lora_send_packet (bytes (payloadText field 10000))
                (payloadText field 10000).length,
              Call.lora_rx_amount (quietEnv.rx 0)]
          ++ (if quietEnv.rx 0 = 0 then []
              else [Call.lora_rx_amount (quietEnv.rx 1), Call.printf_length (quietEnv.rx 1),
                Call.lora_receive_packet 32, Call.printf_data text])
          ++ [Call.lora_destroy, Call.gpio_set false, Call.am_hal_sysctrl_sleep] ∧
      (iteration 3 quietEnv).trace.countP Call.isSend = 1 ∧
      (iteration 3 quietEnv).trace.countP Call.isRxAmount
        = (if quietEnv.rx 0 = 0 then 1 else 2) ∧
      (iteration 3 quietEnv).trace.count (Call.gpio_set true) = 1 ∧
      (iteration 3 quietEnv).trace.count (Call.am_util_delay_ms 10) = 1 ∧
      (iteration 3 quietEnv).trace.count (Call.gpio_set false) = 1 ∧
      (iteration 3 quietEnv).trace.count Call.lora_destroy = 1 :=
  ⟨⟨rfl, by decide, by decide, rfl, by decide⟩,
    iteration_calls 3 quietEnv 8192 2 rfl (by decide) (by decide) rfl (by decide)⟩

theorem power_session_invariant_witness :
    (RadioState.idle.after ((mainLoop 3 [quietEnv]).trace.take 6)).alive = true ∧
    (RadioState.idle.after ((mainLoop 3 [quietEnv]).trace.take 6)).powered = true :=
  ⟨by rw [quietEnv_trace.2],
    (power_session_invariant 3 [quietEnv] 6).1 (by rw [quietEnv_trace.2])⟩

theorem radio_session_protocol_witness :
    (mainLoop 3 [quietEnv, quietEnv]).trace[12]? = some Call.lora_destroy ∧
    ((Call.lora_destroy.isRadio = true → Call.lora_destroy.isInit = false →
      ∃ before between f,
        (mainLoop 3 [quietEnv, quietEnv]).trace.take 12
            = before ++ Call.lora_init f true :: between
          ∧ Call.lora_destroy ∉ between) ∧
    (Call.lora_destroy.isInit = true → ∀ before between f,
      (mainLoop 3 [quietEnv, quietEnv]).trace.take 12
          = before ++ Call.lora_init f true :: between →
        Call.lora_destroy ∈ between) ∧
    (Call.lora_destroy = Call.lora_destroy → ∀ j next, 12 < j →
      (mainLoop 3 [quietEnv, quietEnv]).trace[j]? = some next → next.isRadio = true →
      (∀ m other, 12 < m → m < j → (mainLoop 3 [quietEnv, quietEnv]).trace[m]? = some other →
        other.isRadio = false) →
      next.isInit = true)) :=
  ⟨quietEnv_trace.1, radio_session_protocol 3 [quietEnv, quietEnv] 12 Call.lora_destroy
    quietEnv_trace.1⟩

end RedboardLora
